import Mathlib

/-!
Verification development for the ATSP approximation driver (src/main.py).

The driver's core is `multibeta`: it emits one exact reference solution and
then sweeps a threshold `beta` over the descending-sorted list of asymmetry
factors, halving the proportion of asymmetric edges each iteration.  The
modules imported by `main.py` (graph construction, the asymmetry analyzer,
both tour extenders and the exact-solver wrappers) are not part of the
sources being verified; where a property depends on them they are either
taken as abstract parameters or modelled from the specification, as marked
in the corresponding doc comments.

All numbers are modelled as rationals.  The Python loop only ever rounds
values of the form n / 2^k with n a list length, which are exact in binary
floating point, so `round` is faithfully the rational round-half-to-even.
-/

/-- Python's `round` (round half to even) evaluated at the exact rational
`n / m`: the integer part is `n / m`, the fractional part is `(n % m) / m`,
which is below, above or at one half according as `2 * (n % m)` compares to
`m`; ties go to the even integer part.  The sweep only rounds
`asym_ratio * len(facs)` with `asym_ratio = 2 ^ (-k)`, whose float value is
exactly `n / 2 ^ k`, so this is the faithful semantics of the source's
`round` call. -/
def roundHalfEven (n m : ℕ) : ℕ :=
  if 2 * (n % m) < m then n / m
  else if m < 2 * (n % m) then n / m + 1
  else if (n / m) % 2 = 0 then n / m else n / m + 1

lemma roundHalfEven_eq_zero {n m : ℕ} (hm : 0 < m) (h : 2 * n ≤ m) :
    roundHalfEven n m = 0 := by
  have hnm : n < m := by omega
  unfold roundHalfEven
  rw [Nat.div_eq_of_lt hnm, Nat.mod_eq_of_lt hnm]
  split_ifs <;> omega

lemma roundHalfEven_pos {n m : ℕ} (hm : 0 < m) (h : m < 2 * n) :
    0 < roundHalfEven n m := by
  unfold roundHalfEven
  rcases Nat.lt_or_ge n m with hnm | hnm
  · rw [Nat.div_eq_of_lt hnm, Nat.mod_eq_of_lt hnm]
    split_ifs <;> omega
  · have hq : 1 ≤ n / m := (Nat.one_le_div_iff hm).mpr hnm
    generalize n % m = r
    generalize hq1 : n / m = q
    rw [hq1] at hq
    split_ifs <;> omega

lemma roundHalfEven_eq_zero_iff {n m : ℕ} (hm : 0 < m) :
    roundHalfEven n m = 0 ↔ 2 * n ≤ m := by
  constructor
  · intro h
    by_contra hc
    push_neg at hc
    have := roundHalfEven_pos hm hc
    omega
  · exact roundHalfEven_eq_zero hm

lemma roundHalfEven_antitone {n m m' : ℕ} (hm : 0 < m) (hmm : m ≤ m') :
    roundHalfEven n m' ≤ roundHalfEven n m := by
  have hq : n / m' ≤ n / m := Nat.div_le_div_left hmm hm
  rcases Nat.lt_or_ge (n / m') (n / m) with hlt | hge
  · unfold roundHalfEven
    generalize n % m' = r2
    generalize n % m = r1
    generalize hq2 : n / m' = q2
    generalize hq1 : n / m = q1
    rw [hq2, hq1] at hlt
    split_ifs <;> omega
  · have heq : n / m' = n / m := le_antisymm hq hge
    have hr : n % m' ≤ n % m := by
      have h1 := Nat.div_add_mod n m
      have h2 := Nat.div_add_mod n m'
      have hmul : m * (n / m) ≤ m' * (n / m') := by
        rw [heq]
        exact Nat.mul_le_mul_right _ hmm
      generalize hA : m * (n / m) = A at h1 hmul
      generalize hB : m' * (n / m') = B at h2 hmul
      generalize n % m = r1 at h1 ⊢
      generalize n % m' = r2 at h2 ⊢
      omega
    unfold roundHalfEven
    generalize hr2 : n % m' = r2
    generalize hr1 : n % m = r1
    generalize hq2 : n / m' = q2
    generalize hq1 : n / m = q1
    rw [hr2, hr1] at hr
    rw [hq2, hq1] at heq
    split_ifs <;> omega

/-- The index computed by the sweep loop at iteration `k`:
`round(asym_ratio * len(facs))` with `asym_ratio = 2 ^ (-k)` (the ratio
starts at `1` and is halved once per iteration). -/
def betaIndex (n k : ℕ) : ℕ := roundHalfEven n (2 ^ k)

lemma betaIndex_eq_zero_iff (n k : ℕ) : betaIndex n k = 0 ↔ 2 * n ≤ 2 ^ k :=
  roundHalfEven_eq_zero_iff (Nat.pos_pow_of_pos k (by norm_num))

lemma betaIndex_antitone (n : ℕ) {k l : ℕ} (h : k ≤ l) :
    betaIndex n l ≤ betaIndex n k :=
  roundHalfEven_antitone (Nat.pos_pow_of_pos k (by norm_num))
    (Nat.pow_le_pow_right (by norm_num) h)

/-- First iteration index at which the sweep loop's selected index is `0`
(the loop executes exactly `Kval n + 1` iterations). -/
def Kval (n : ℕ) : ℕ := Nat.clog 2 (2 * n)

lemma betaIndex_eq_zero_iff_Kval_le (n k : ℕ) :
    betaIndex n k = 0 ↔ Kval n ≤ k := by
  rw [betaIndex_eq_zero_iff]
  exact Nat.le_pow_iff_clog_le (by norm_num)

lemma Kval_le_two_mul (n : ℕ) : Kval n ≤ 2 * n := by
  rw [Kval, ← Nat.le_pow_iff_clog_le (by norm_num)]
  exact (Nat.lt_two_pow (2 * n)).le

/-- `sorted(xs, reverse=True)` as used in `multibeta` for the factor list. -/
def sortDesc (l : List ℚ) : List ℚ := l.insertionSort (fun a b => a ≥ b)

lemma sortDesc_length (l : List ℚ) : (sortDesc l).length = l.length :=
  List.length_insertionSort _ _

lemma sortDesc_perm (l : List ℚ) : (sortDesc l).Perm l :=
  List.perm_insertionSort _ _

lemma sortDesc_sorted (l : List ℚ) : (sortDesc l).Sorted (fun a b => a ≥ b) :=
  List.sorted_insertionSort _ _

/-- The beta chosen at loop iteration `k` of `multibeta`:
`facs[beta_index]` when the index is in range, and the fallback `1`
(`beta = 1`) when `beta_index >= len(facs)`. -/
def betaVal (facs : List ℚ) (k : ℕ) : ℚ :=
  if h : betaIndex facs.length k < facs.length then
    facs.get ⟨betaIndex facs.length k, h⟩
  else 1

/-- The `while True` loop of `multibeta`, fuelled: at iteration `k` it emits
the beta passed to `run`, halves the ratio and continues while the selected
index `round(asym_ratio * len(facs))` is positive, and stops right after the
iteration where it is zero.  The fuel is only a structural-recursion bound;
`sweepGoFuel_eq` shows any sufficiently large fuel yields the same list. -/
def sweepGoFuel (facs : List ℚ) : ℕ → ℕ → List ℚ
  | _, 0 => []
  | k, fuel + 1 =>
    if 0 < betaIndex facs.length k then
      betaVal facs k :: sweepGoFuel facs (k + 1) fuel
    else [betaVal facs k]

/-- The full sequence of beta values passed to `run` by `multibeta`, in
order, one per loop iteration (the reference emission is not produced by
`run` and is therefore not part of this list). -/
def multibetaBetas (factors : List ℚ) : List ℚ :=
  sweepGoFuel (sortDesc factors) 0 (2 * factors.length + 1)

lemma sweepGoFuel_eq (facs : List ℚ) :
    ∀ fuel k, k ≤ Kval facs.length → Kval facs.length < k + fuel →
      sweepGoFuel facs k fuel =
        (List.range (Kval facs.length - k + 1)).map (fun j => betaVal facs (k + j)) := by
  intro fuel
  induction fuel with
  | zero => intro k hk hfuel; omega
  | succ fuel ih =>
    intro k hk hfuel
    by_cases hkK : k = Kval facs.length
    · have hzero : betaIndex facs.length k = 0 :=
        (betaIndex_eq_zero_iff_Kval_le _ _).mpr (le_of_eq hkK.symm)
      rw [sweepGoFuel, hzero]
      simp [hkK, List.range_succ]
    · have hklt : k < Kval facs.length := lt_of_le_of_ne hk hkK
      have hpos : 0 < betaIndex facs.length k := by
        rcases Nat.eq_zero_or_pos (betaIndex facs.length k) with hz | hp
        · exact absurd ((betaIndex_eq_zero_iff_Kval_le _ _).mp hz) (by omega)
        · exact hp
      rw [sweepGoFuel, if_pos hpos,
        ih (k + 1) (by omega) (by omega)]
      have hsub : Kval facs.length - k + 1 = (Kval facs.length - (k + 1) + 1) + 1 := by
        omega
      rw [hsub]
      conv_rhs => rw [List.range_succ_eq_map]
      rw [List.map_cons, List.map_map]
      congr 1
      apply List.map_congr_left
      intro j hj
      exact congrArg (betaVal facs) (by omega)

lemma multibetaBetas_eq (factors : List ℚ) :
    multibetaBetas factors =
      (List.range (Kval factors.length + 1)).map
        (fun j => betaVal (sortDesc factors) j) := by
  have hlen : (sortDesc factors).length = factors.length := sortDesc_length factors
  have h := sweepGoFuel_eq (sortDesc factors) (2 * factors.length + 1) 0
    (Nat.zero_le _)
    (by rw [hlen]; have := Kval_le_two_mul factors.length; omega)
  rw [multibetaBetas, h, hlen]
  simp

/-- Modelled from the spec: `to_graph` (module `util`) is not under src/.
The spec's Graph is a set of node identifiers plus a directed cost function;
iteration (`list(graph)`, `len(graph)`) traverses each node exactly once, so
the node list carries a no-duplicates invariant. -/
structure Graph where
  nodes : List ℕ
  nodup : nodes.Nodup
  cost : ℕ → ℕ → ℚ

/-- Result dictionary of an exact oracle: `{'cost': ..., 'tour': ...}`. -/
structure OracleResult where
  cost : ℚ
  tour : List ℕ

/-- Solution dictionary as consumed by `format_output`:
`{'cost': ..., 'tour': ..., 'kernel_size': ...}`. -/
structure Solution where
  cost : ℚ
  tour : List ℕ
  kernel_size : ℕ

/-- One solution line as emitted by `print(format_output(...))`: the solution
together with the `graph_size` and `beta` arguments it was formatted with. -/
structure Emission where
  solution : Solution
  graph_size : ℕ
  beta : ℚ

/-- The dummy exact algorithm of `run` and `multibeta`:
`lambda graph: {'cost': 0, 'tour': list(graph)}`. -/
def dummyOracle (g : Graph) : OracleResult :=
  { cost := 0, tour := g.nodes }

/-- The oracle selection shared by `run` and `multibeta`: the exact solver
(`concorde_asym`, abstract here since it is not under src/) when
`compute_tour` is set, the dummy oracle otherwise. -/
def selectOracle (concorde : Graph → OracleResult) (compute_tour : Bool) :
    Graph → OracleResult :=
  if compute_tour then concorde else dummyOracle

/-- Signature of `g_treedoubling` / `g_christofides` (not under src/):
graph, exact oracle and beta in, solution out. -/
abbrev AlgoFn : Type := Graph → (Graph → OracleResult) → ℚ → Solution

def treedoublingName : String := "treedoubling"

def christofidesName : String := "christofides"

/-- Error raised by `run`: `ValueError(f'invalid algo: {algo}')`. -/
inductive RunError where
  | invalidAlgo : String → RunError

/-- `run(g, algo, beta, compute_tour, output_tour)` from src/src/main.py,
parameterized by the imported algorithms: dispatch on the algorithm selector,
compute one solution, and emit exactly one solution line; raise on any other
selector.  (`output_tour` only affects formatting, see `format_output`.) -/
def run (td ch : AlgoFn) (concorde : Graph → OracleResult) (g : Graph)
    (algo : String) (beta : ℚ) (compute_tour : Bool) : Except RunError Emission :=
  let exact_algo := selectOracle concorde compute_tour
  if algo = treedoublingName then
    Except.ok ⟨td g exact_algo beta, g.nodes.length, beta⟩
  else if algo = christofidesName then
    Except.ok ⟨ch g exact_algo beta, g.nodes.length, beta⟩
  else
    Except.error (RunError.invalidAlgo algo)

/-- The loop of `multibeta`: call `run` once per beta value, collecting the
emitted lines in order; an exception aborts the remaining iterations. -/
def runLoop (td ch : AlgoFn) (concorde : Graph → OracleResult) (g : Graph)
    (algo : String) (compute_tour : Bool) :
    List ℚ → List Emission × Option RunError
  | [] => ([], none)
  | b :: bs =>
    match run td ch concorde g algo b compute_tour with
    | Except.error e => ([], some e)
    | Except.ok em =>
      let rest := runLoop td ch concorde g algo compute_tour bs
      (em :: rest.1, rest.2)

/-- `multibeta(matrix, algo, compute_tour, output_tour)`: first the reference
emission (the exact oracle on the whole graph, `kernel_size = len(g)`,
`beta = 0`), then one `run` per sweep iteration.  The graph and the
asymmetry-factor list are parameters because `to_graph` and
`asymmetry_factors` are not under src/.  Returns the emitted solution lines
in order, plus the exception that aborted the loop, if any. -/
def multibeta (td ch : AlgoFn) (concorde : Graph → OracleResult) (g : Graph)
    (factors : List ℚ) (algo : String) (compute_tour : Bool) :
    List Emission × Option RunError :=
  let exact_algo := selectOracle concorde compute_tour
  let first : Emission :=
    ⟨⟨(exact_algo g).cost, (exact_algo g).tour, g.nodes.length⟩, g.nodes.length, 0⟩
  let loopOut := runLoop td ch concorde g algo compute_tour (multibetaBetas factors)
  (first :: loopOut.1, loopOut.2)

def commaSep : String := ", "

def spaceSep : String := " "

/-- `format_output(solution, graph_size, beta, compute_tour, output_tour)`:
comma-joined fields `beta, graph_size, kernel_size`, then the cost when
`compute_tour` is set, then the space-joined tour when `output_tour` is set.
Number rendering abstracts Python's `str` as `toString`. -/
def format_output (solution : Solution) (graph_size : ℕ) (beta : ℚ)
    (compute_tour output_tour : Bool) : String :=
  let output := [toString beta, toString graph_size, toString solution.kernel_size]
  let output := if compute_tour then output ++ [toString solution.cost] else output
  let output :=
    if output_tour then
      output ++ [String.intercalate spaceSep (solution.tour.map toString)]
    else output
  String.intercalate commaSep output

/-- The header fields printed by `main` before running. -/
def headerFields (compute_tour output_tour : Bool) : List String :=
  let fields := ["beta", "graph_size", "kernel_size"]
  let fields := if compute_tour then fields ++ ["tour_cost"] else fields
  let fields := if output_tour then fields ++ ["tour"] else fields
  fields

/-- The header line `print(', '.join(fields))` of `main`. -/
def headerLine (compute_tour output_tour : Bool) : String :=
  String.intercalate commaSep (headerFields compute_tour output_tour)

/-- Structural failure of an extender (disconnected residual graph). -/
inductive StructuralError where
  | disconnected : StructuralError

/-- First-occurrence shortcutting with an explicit visited set: every node of
the walk is kept only where it first appears. -/
def shortcutAux : List ℕ → List ℕ → List ℕ
  | _, [] => []
  | seen, x :: xs =>
    if x ∈ seen then shortcutAux seen xs
    else x :: shortcutAux (x :: seen) xs

/-- Shortcut of a closed walk: visit each node on its first occurrence. -/
def shortcut (walk : List ℕ) : List ℕ := shortcutAux [] walk

/-- Modelled from the spec: `g_treedoubling` and `g_christofides` (the two
extenders) are not under src/.  Both construct an Eulerian closed walk over
the graph (doubled spanning structure plus the spliced kernel tour), shortcut
it to a Hamiltonian tour by first occurrence, and must report a structural
error instead of a partial tour whenever the walk cannot reach every node
(disconnected graph).  The walk construction is abstracted as the `walk`
argument; the coverage check and the shortcut are modelled explicitly. -/
def extendTour (g : Graph) (walk : List ℕ) : Except StructuralError (List ℕ) :=
  if ∀ x ∈ g.nodes, x ∈ walk then Except.ok (shortcut walk)
  else Except.error StructuralError.disconnected

/-- Path cost along consecutive directed edges. -/
def pathCost (g : Graph) : List ℕ → ℚ
  | a :: b :: rest => g.cost a b + pathCost g (b :: rest)
  | _ => 0

/-- Modelled from the spec: `tour_cost` (module `util`) is not under src/.
The spec defines a tour's cost as the sum of directed edge costs along the
closed sequence (last node connects back to first). -/
def tour_cost (tour : List ℕ) (g : Graph) : ℚ :=
  match tour with
  | [] => 0
  | x :: xs =>
    pathCost g (x :: xs) + g.cost ((x :: xs).getLast (List.cons_ne_nil x xs)) x

/-- `random_tour(g)`: shuffle the node list and price the resulting closed
tour.  `random.shuffle` is modelled as an arbitrary permutation-producing
function supplied as a parameter. -/
def random_tour (shuffle : List ℕ → List ℕ) (g : Graph) : OracleResult :=
  let tour := shuffle g.nodes
  { cost := tour_cost tour g, tour := tour }

/-- Outcome of one invocation of `main`, as far as the claims need it. -/
structure MainTrace where
  printed_help : Bool
  parsed_graph : Bool
  emissions : List Emission

/-- The entry gate of `main`: with a bare `sys.argv` (only the program name,
no arguments) it prints the help text and exits; everything after the gate
(argument parsing, graph parsing, running) is abstracted as `proceed`. -/
def mainProg (proceed : MainTrace) (argv : List String) : MainTrace :=
  if argv.length = 1 then ⟨true, false, []⟩ else proceed

/-- C1's selection rule exactly as claimed: at every loop iteration the beta
passed to `run` equals the factor value at index
`round(proportion * number of distinct factors)` in the descending-sorted
factor list, the proportion starting at 1 and halving each iteration. -/
def c1SpecClaim (factors : List ℚ) : Prop :=
  ∀ i, i < (multibetaBetas factors).length →
    (multibetaBetas factors).get? i =
      (sortDesc factors).get? (betaIndex (sortDesc factors).dedup.length i)

/-- Concrete three-node graph used by the witness instantiations. -/
def sampleGraph : Graph := ⟨[0, 1, 2], by decide, fun _ _ => 1⟩

/-- The line printed by `run`: `format_output` applied to its emission. -/
def runOutput (td ch : AlgoFn) (concorde : Graph → OracleResult) (g : Graph)
    (algo : String) (beta : ℚ) (compute_tour output_tour : Bool) :
    Except RunError String :=
  Except.map
    (fun em => format_output em.solution em.graph_size em.beta compute_tour output_tour)
    (run td ch concorde g algo beta compute_tour)

lemma mem_shortcutAux {a : ℕ} :
    ∀ (l seen : List ℕ), a ∈ shortcutAux seen l ↔ (a ∈ l ∧ a ∉ seen)
  | [], seen => by simp [shortcutAux]
  | x :: xs, seen => by
    rw [shortcutAux]
    split_ifs with hx
    · rw [mem_shortcutAux xs seen]
      simp only [List.mem_cons]
      constructor
      · exact fun h => ⟨Or.inr h.1, h.2⟩
      · rintro ⟨hor, hns⟩
        rcases hor with rfl | h
        · exact absurd hx hns
        · exact ⟨h, hns⟩
    · rw [List.mem_cons, mem_shortcutAux xs (x :: seen)]
      simp only [List.mem_cons]
      constructor
      · rintro (rfl | ⟨hmem, hns⟩)
        · exact ⟨Or.inl rfl, hx⟩
        · exact ⟨Or.inr hmem, fun hs => hns (Or.inr hs)⟩
      · rintro ⟨hor, hns⟩
        rcases hor with rfl | h
        · exact Or.inl rfl
        · by_cases hax : a = x
          · exact Or.inl hax
          · exact Or.inr ⟨h, fun hs => hs.elim hax hns⟩

lemma nodup_shortcutAux : ∀ (l seen : List ℕ), (shortcutAux seen l).Nodup
  | [], seen => by simp [shortcutAux]
  | x :: xs, seen => by
    rw [shortcutAux]
    split_ifs with hx
    · exact nodup_shortcutAux xs seen
    · refine List.nodup_cons.mpr ⟨fun hmem => ?_, nodup_shortcutAux xs (x :: seen)⟩
      exact ((mem_shortcutAux xs (x :: seen)).mp hmem).2 (List.mem_cons_self _ _)

lemma mem_shortcut {a : ℕ} (walk : List ℕ) : a ∈ shortcut walk ↔ a ∈ walk := by
  rw [shortcut, mem_shortcutAux]
  simp

lemma nodup_shortcut (walk : List ℕ) : (shortcut walk).Nodup :=
  nodup_shortcutAux walk []

lemma multibetaBetas_length (factors : List ℚ) :
    (multibetaBetas factors).length = Kval factors.length + 1 := by
  rw [multibetaBetas_eq]
  simp

lemma multibetaBetas_getElem? (factors : List ℚ) (i : ℕ)
    (h : i < (multibetaBetas factors).length) :
    (multibetaBetas factors)[i]? = some (betaVal (sortDesc factors) i) := by
  rw [multibetaBetas_length] at h
  rw [multibetaBetas_eq, List.getElem?_map, List.getElem?_range h]
  rfl

lemma betaVal_le_succ (factors : List ℚ)
    (hf : ∀ f ∈ factors, (1:ℚ) ≤ f) (m : ℕ) :
    betaVal (sortDesc factors) m ≤ betaVal (sortDesc factors) (m + 1) := by
  have h21 : betaIndex (sortDesc factors).length (m + 1) ≤
      betaIndex (sortDesc factors).length m :=
    betaIndex_antitone _ (Nat.le_succ m)
  unfold betaVal
  split_ifs with ha hb hb
  · have hsorted := sortDesc_sorted factors
    have := hsorted.rel_get_of_le
      (a := ⟨betaIndex (sortDesc factors).length (m + 1), hb⟩)
      (b := ⟨betaIndex (sortDesc factors).length m, ha⟩) h21
    exact this
  · exact absurd (lt_of_le_of_lt h21 ha) hb
  · have hmem : (sortDesc factors).get
        ⟨betaIndex (sortDesc factors).length (m + 1), hb⟩ ∈ sortDesc factors :=
      List.get_mem _ _ _
    exact hf _ ((sortDesc_perm factors).subset hmem)
  · exact le_refl 1

/-- C1 (claim as stated, refuted): for the concrete factor list
`[3, 3, 2]` it is false that every loop iteration's beta equals the factor
at index `round(proportion * number of distinct factors)` of the
descending-sorted factor list — the first iteration's index is out of range
(the code falls back to `beta = 1`) and the code scales by the factor count
with multiplicity, not the distinct count. -/
theorem C1_claim_counterexample : ¬ c1SpecClaim [3, 3, 2] := by
  unfold c1SpecClaim
  decide

/-- C1 (amended): at every iteration of the sweep loop, the beta passed to
`run` equals the factor value at index
`round(proportion * number of factors counted with multiplicity)` in the
descending-sorted factor list whenever that index is within the list, and
equals the fallback `1` when the index is at or beyond the list length (as
at the first iteration, where the proportion is 1 and the index equals the
list length). -/
theorem C1_beta_from_sorted_factor_list (factors : List ℚ) (i : ℕ)
    (h : i < (multibetaBetas factors).length) :
    (multibetaBetas factors)[i]? = some (betaVal (sortDesc factors) i) :=
  multibetaBetas_getElem? factors i h

/-- C1 witness: the amended selection rule evaluated at the second loop
iteration of the sweep over `[3, 3, 2]`. -/
theorem C1_beta_from_sorted_factor_list_witness :
    (multibetaBetas [3, 3, 2])[1]? = some (betaVal (sortDesc [3, 3, 2]) 1) :=
  C1_beta_from_sorted_factor_list [3, 3, 2] 1 (by decide)

/-- C2: the first solution line emitted by `multibeta` (before any
kernelized iteration) carries the exact oracle's cost and tour on the full
graph, `kernel_size` equal to the whole graph's node count, and beta `0`. -/
theorem C2_multibeta_first_emission_is_exact_reference (td ch : AlgoFn)
    (concorde : Graph → OracleResult) (g : Graph) (factors : List ℚ)
    (algo : String) (compute_tour : Bool) :
    (multibeta td ch concorde g factors algo compute_tour).1.head? =
      some ⟨⟨(selectOracle concorde compute_tour g).cost,
        (selectOracle concorde compute_tour g).tour, g.nodes.length⟩,
        g.nodes.length, 0⟩ := rfl

/-- C3: for every factor list the sweep loop terminates, and it terminates
exactly after executing the iteration at which the selected index
`round(proportion * number of factors)` first reaches zero: there is a `K`
with index zero at iteration `K` and positive before it, the loop emits
exactly `K + 1` betas, and any sufficiently large fuel bound yields the
same finite run. -/
theorem C3_multibeta_terminates_at_zero_index (factors : List ℚ) :
    ∃ K, betaIndex factors.length K = 0 ∧
      (∀ j, j < K → betaIndex factors.length j ≠ 0) ∧
      (multibetaBetas factors).length = K + 1 ∧
      (∀ fuel, K < fuel →
        sweepGoFuel (sortDesc factors) 0 fuel = multibetaBetas factors) := by
  refine ⟨Kval factors.length, ?_, ?_, multibetaBetas_length factors, ?_⟩
  · exact (betaIndex_eq_zero_iff_Kval_le _ _).mpr le_rfl
  · intro j hj hz
    exact absurd ((betaIndex_eq_zero_iff_Kval_le _ _).mp hz) (by omega)
  · intro fuel hfuel
    have hlen : (sortDesc factors).length = factors.length := sortDesc_length factors
    have h1 := sweepGoFuel_eq (sortDesc factors) fuel 0 (Nat.zero_le _)
      (by rw [hlen]; omega)
    have h2 := sweepGoFuel_eq (sortDesc factors) (2 * factors.length + 1) 0
      (Nat.zero_le _)
      (by rw [hlen]; have := Kval_le_two_mul factors.length; omega)
    rw [multibetaBetas, h1, h2]

/-- C4: for every graph and every walk over its nodes, a tour returned by
the (spec-modelled) extender is a permutation of exactly the graph's node
set, and when the walk cannot place every node the extender reports the
structural error instead of a partial tour. -/
theorem C4_extender_tour_is_permutation (g : Graph) (walk t : List ℕ)
    (hw : ∀ x ∈ walk, x ∈ g.nodes) :
    (extendTour g walk = Except.ok t → t.Perm g.nodes) ∧
    ((¬ ∀ x ∈ g.nodes, x ∈ walk) →
      extendTour g walk = Except.error StructuralError.disconnected) := by
  unfold extendTour
  split_ifs with hcov
  · constructor
    · intro hok
      have ht : t = shortcut walk := by
        simpa using hok.symm
      subst ht
      refine (List.perm_ext_iff_of_nodup (nodup_shortcut walk) g.nodup).mpr ?_
      intro a
      rw [mem_shortcut]
      exact ⟨fun ha => hw a ha, fun ha => hcov a ha⟩
    · intro hn
      exact absurd hcov hn
  · constructor
    · intro hok
      simp at hok
    · intro _
      rfl

/-- C4 witness: the extender succeeds on a covering walk of the sample
graph and the resulting tour is a permutation of its node set. -/
theorem C4_extender_tour_is_permutation_witness :
    (extendTour sampleGraph [0, 1, 2, 1, 0] = Except.ok [0, 1, 2] →
      ([0, 1, 2] : List ℕ).Perm sampleGraph.nodes) ∧
    ((¬ ∀ x ∈ sampleGraph.nodes, x ∈ [0, 1, 2, 1, 0]) →
      extendTour sampleGraph [0, 1, 2, 1, 0] =
        Except.error StructuralError.disconnected) :=
  C4_extender_tour_is_permutation sampleGraph [0, 1, 2, 1, 0] [0, 1, 2] (by decide)

/-- C5: `format_output` yields the comma-joined fields beta, graph size and
kernel size, followed by the tour cost exactly when `compute_tour` is set
and by the space-joined tour exactly when `output_tour` is set; the header
printed by `main` lists the same fields under the same conditions. -/
theorem C5_format_output_fields (solution : Solution) (graph_size : ℕ)
    (beta : ℚ) (compute_tour output_tour : Bool) :
    format_output solution graph_size beta compute_tour output_tour =
      String.intercalate commaSep
        ([toString beta, toString graph_size, toString solution.kernel_size] ++
          (if compute_tour then [toString solution.cost] else []) ++
          (if output_tour then
            [String.intercalate spaceSep (solution.tour.map toString)]
          else [])) ∧
    headerFields compute_tour output_tour =
      ["beta", "graph_size", "kernel_size"] ++
        (if compute_tour then ["tour_cost"] else []) ++
        (if output_tour then ["tour"] else []) := by
  cases compute_tour <;> cases output_tour <;> exact ⟨rfl, rfl⟩

/-- C6: `run` raises the invalid-algorithm error exactly when the selector
is neither the tree-doubling nor the Christofides name, and for either
valid selector it instead emits exactly one formatted solution line. -/
theorem C6_run_fails_iff_invalid_selector (td ch : AlgoFn)
    (concorde : Graph → OracleResult) (g : Graph) (algo : String) (beta : ℚ)
    (compute_tour output_tour : Bool) :
    ((∃ e, runOutput td ch concorde g algo beta compute_tour output_tour =
        Except.error e) ↔
      (algo ≠ treedoublingName ∧ algo ≠ christofidesName)) ∧
    ((algo = treedoublingName ∨ algo = christofidesName) ↔
      ∃ line, runOutput td ch concorde g algo beta compute_tour output_tour =
        Except.ok line) := by
  by_cases h1 : algo = treedoublingName
  · simp [runOutput, run, h1, Except.map]
  · by_cases h2 : algo = christofidesName
    · have hne : christofidesName ≠ treedoublingName := by decide
      simp [runOutput, run, h1, h2, hne, Except.map]
    · simp [runOutput, run, h1, h2, Except.map]

/-- C7: with `compute_tour` unset, both `run` and `multibeta` select the
dummy exact oracle, which returns cost `0` and a tour listing exactly the
subgraph's nodes, each exactly once. -/
theorem C7_dummy_oracle_when_tour_skipped (concorde : Graph → OracleResult)
    (g : Graph) :
    selectOracle concorde false = dummyOracle ∧
    (dummyOracle g).cost = 0 ∧
    (dummyOracle g).tour.Nodup ∧
    (∀ x, x ∈ (dummyOracle g).tour ↔ x ∈ g.nodes) :=
  ⟨rfl, rfl, g.nodup, fun _ => Iff.rfl⟩

/-- C8: under the spec's asymmetry-factor invariant (every factor at least
`1`, the ratio definition), the sequence of beta values passed to `run`
across one multibeta sweep is monotonically non-decreasing. -/
theorem C8_multibeta_betas_monotone (factors : List ℚ)
    (hf : ∀ f ∈ factors, (1:ℚ) ≤ f) :
    (multibetaBetas factors).Chain' (fun a b => a ≤ b) := by
  rw [multibetaBetas_eq, List.chain'_map, List.chain'_range_succ]
  intro m _
  exact betaVal_le_succ factors hf m

/-- C8 witness: the beta sequence of the sweep over `[3, 3, 2]` (which is
`[1, 2, 3, 3]`) is non-decreasing. -/
theorem C8_multibeta_betas_monotone_witness :
    (multibetaBetas [3, 3, 2]).Chain' (fun a b => a ≤ b) :=
  C8_multibeta_betas_monotone [3, 3, 2] (by decide)

/-- C9: invoked with a bare argument vector (program name only), `main`
prints the help text and exits: no graph is parsed and no solution line is
emitted. -/
theorem C9_main_without_args_prints_help_only (proceed : MainTrace)
    (prog : String) :
    mainProg proceed [prog] = ⟨true, false, []⟩ := rfl

/-- C10: `random_tour` returns a record whose tour is a permutation of the
graph's node set (every node exactly once) and whose cost is the
closed-tour cost of that permutation. -/
theorem C10_random_tour_permutation_and_cost (g : Graph)
    (shuffle : List ℕ → List ℕ) (hs : (shuffle g.nodes).Perm g.nodes) :
    (random_tour shuffle g).tour.Perm g.nodes ∧
    (∀ x ∈ g.nodes, (random_tour shuffle g).tour.count x = 1) ∧
    (random_tour shuffle g).cost =
      tour_cost (random_tour shuffle g).tour g := by
  refine ⟨hs, ?_, rfl⟩
  intro x hx
  have htour : (random_tour shuffle g).tour = shuffle g.nodes := rfl
  rw [htour, hs.count_eq]
  exact List.count_eq_one_of_mem g.nodup hx

/-- C10 witness: `random_tour` on the sample graph with reversal as the
shuffle produces a permutation of the node set with the matching closed
cost. -/
theorem C10_random_tour_permutation_and_cost_witness :
    (random_tour List.reverse sampleGraph).tour.Perm sampleGraph.nodes ∧
    (∀ x ∈ sampleGraph.nodes,
      (random_tour List.reverse sampleGraph).tour.count x = 1) ∧
    (random_tour List.reverse sampleGraph).cost =
      tour_cost (random_tour List.reverse sampleGraph).tour sampleGraph :=
  C10_random_tour_permutation_and_cost sampleGraph List.reverse (by decide)

/-- Placeholder extender used to instantiate the abstract algorithm
parameters in witness statements. -/
def trivialAlgo : AlgoFn := fun _ _ _ => ⟨0, [], 0⟩

/-- Program name used to instantiate `sys.argv` in witness statements. -/
def sampleArgv0 : String := "main.py"

/-- C2 witness: the reference emission of a concrete sweep over the sample
graph carries the oracle's cost and tour, the full node count as kernel
size, and beta `0`. -/
theorem C2_multibeta_first_emission_is_exact_reference_witness :
    (multibeta trivialAlgo trivialAlgo dummyOracle sampleGraph [3, 2]
        treedoublingName false).1.head? =
      some ⟨⟨(selectOracle dummyOracle false sampleGraph).cost,
        (selectOracle dummyOracle false sampleGraph).tour,
        sampleGraph.nodes.length⟩, sampleGraph.nodes.length, 0⟩ :=
  C2_multibeta_first_emission_is_exact_reference trivialAlgo trivialAlgo
    dummyOracle sampleGraph [3, 2] treedoublingName false

/-- C3 witness: the sweep over `[3, 3, 2]` stops right after the iteration
with selected index zero. -/
theorem C3_multibeta_terminates_at_zero_index_witness :
    ∃ K, betaIndex ([(3:ℚ), 3, 2].length) K = 0 ∧
      (∀ j, j < K → betaIndex ([(3:ℚ), 3, 2].length) j ≠ 0) ∧
      (multibetaBetas [3, 3, 2]).length = K + 1 ∧
      (∀ fuel, K < fuel →
        sweepGoFuel (sortDesc [3, 3, 2]) 0 fuel = multibetaBetas [3, 3, 2]) :=
  C3_multibeta_terminates_at_zero_index [3, 3, 2]

/-- C5 witness: concrete formatting of a solution with both flags set. -/
theorem C5_format_output_fields_witness :
    format_output ⟨0, [1, 2], 3⟩ 3 1 true true =
      String.intercalate commaSep
        ([toString (1:ℚ), toString (3:ℕ), toString (3:ℕ)] ++
          (if true then [toString (0:ℚ)] else []) ++
          (if true then
            [String.intercalate spaceSep (([1, 2] : List ℕ).map toString)]
          else [])) ∧
    headerFields true true =
      ["beta", "graph_size", "kernel_size"] ++
        (if true then ["tour_cost"] else []) ++
        (if true then ["tour"] else []) :=
  C5_format_output_fields ⟨0, [1, 2], 3⟩ 3 1 true true

/-- C6 witness: with the Christofides selector no error is raised and
exactly one line is emitted. -/
theorem C6_run_fails_iff_invalid_selector_witness :
    ((∃ e, runOutput trivialAlgo trivialAlgo dummyOracle sampleGraph
        christofidesName 1 true false = Except.error e) ↔
      (christofidesName ≠ treedoublingName ∧
        christofidesName ≠ christofidesName)) ∧
    ((christofidesName = treedoublingName ∨
        christofidesName = christofidesName) ↔
      ∃ line, runOutput trivialAlgo trivialAlgo dummyOracle sampleGraph
        christofidesName 1 true false = Except.ok line) :=
  C6_run_fails_iff_invalid_selector trivialAlgo trivialAlgo dummyOracle
    sampleGraph christofidesName 1 true false

/-- C7 witness: the dummy oracle on the sample graph. -/
theorem C7_dummy_oracle_when_tour_skipped_witness :
    selectOracle dummyOracle false = dummyOracle ∧
    (dummyOracle sampleGraph).cost = 0 ∧
    (dummyOracle sampleGraph).tour.Nodup ∧
    (∀ x, x ∈ (dummyOracle sampleGraph).tour ↔ x ∈ sampleGraph.nodes) :=
  C7_dummy_oracle_when_tour_skipped dummyOracle sampleGraph

/-- C9 witness: a bare argument vector yields the help-and-exit trace. -/
theorem C9_main_without_args_prints_help_only_witness :
    mainProg ⟨false, true, []⟩ [sampleArgv0] = ⟨true, false, []⟩ :=
  C9_main_without_args_prints_help_only ⟨false, true, []⟩ sampleArgv0
